import Mathlib

/-!
# jovijovi/merkletree — verification of the spec against `merkle.go`

Shallow embedding of the `merkletree` Go package (file `merkle.go`):
the array-addressed tree builder (`BuildTree` / `initTree` / `buildBranch`),
tree addressing (`Height`, `Width`, `Y`, `X`, `GetRootHash`, `GetHash`),
the path deriver (`PoNs.GetPath`, `PoN.GetParent`), the proof checker
(`Tree.Prove`) and the JSON serializer (`Marshal`).

Modelling conventions:
* `[]byte` is `List Nat`; byte-wise equality is list equality
  (`bytes.Compare a b == 0` in Go is exactly `a = b`).
* The digest provider `IHashFunc` is an arbitrary pure function
  `HashF : List Nat → List Nat`; the Go interface's error return is only
  for I/O-style failures of the primitive, which a pure function never has.
* A Go `*Node` is `NodePtr` (`nil` or a pointed-to `Node`); struct values
  are copied, aliasing is not observable through the claims.
* Go `uint64` is `Nat`.  The only places wraparound could occur
  (`height-1` at `height = 0`, `Width-1` at width 0) are outside every
  claim's domain: claims only concern built trees, which have height ≥ 1
  and no empty level.
* A Go runtime panic (slice index out of range) is the `GoRes.panic`
  outcome, distinct from a returned `error` (`GoRes.err`).
* Go recursions that never return on some inputs (`buildBranch` on fewer
  than two nodes, `GetPath` above the top level) carry an explicit step
  budget that is large enough on every input the program reaches; an
  exhausted budget marks the never-returning case.
* `json.Marshal` output is modelled as a `Json` value (`[]byte` fields as
  the base64 `str` they encode to); rendering a `Json` value to bytes is
  deterministic and injective, so byte-identity of marshalled output is
  equality of `Json` values.
-/

namespace Merkletree

/-- `type Hash = []byte` — a digest, an arbitrary byte sequence. -/
abbrev Hash := List Nat

/-- The digest provider: `IHashFunc.Hash(msg []byte) ([]byte, error)`,
modelled as a pure total function on byte sequences. -/
abbrev HashF := List Nat → List Nat

/-- Outcome of a Go call: a value, a returned `error`, or a runtime panic. -/
inductive GoRes (α : Type) where
  | ok : α → GoRes α
  | err : String → GoRes α
  | panic : GoRes α
deriving DecidableEq, Repr

mutual
/-- `type Node struct { Height int; Hash []byte; Left, Right *Node; Payload []byte }` -/
inductive Node : Type where
  | mk : Int → List Nat → NodePtr → NodePtr → List Nat → Node
  deriving DecidableEq
/-- A `*Node`: nil or a pointed-to node (value semantics). -/
inductive NodePtr : Type where
  | nil : NodePtr
  | ptr : Node → NodePtr
  deriving DecidableEq
end

/-- Field `Node.Height`. -/
def Node.Height : Node → Int
  | .mk h _ _ _ _ => h

/-- Field `Node.Hash`. -/
def Node.Hash : Node → List Nat
  | .mk _ hs _ _ _ => hs

/-- Field `Node.Left`. -/
def Node.Left : Node → NodePtr
  | .mk _ _ l _ _ => l

/-- Field `Node.Right`. -/
def Node.Right : Node → NodePtr
  | .mk _ _ _ r _ => r

/-- Field `Node.Payload`. -/
def Node.Payload : Node → List Nat
  | .mk _ _ _ _ p => p

instance : Inhabited Node := ⟨.mk 0 [] .nil .nil []⟩

/-- `type Leaf = Node` -/
abbrev Leaf := Node

/-- `type Root = Node` -/
abbrev Root := Node

/-- `func (node *Leaf) Clone() *Leaf` — copies every field of the leaf into a
fresh node (on a non-nil receiver; `BuildTree` only clones the last leaf of a
non-empty sequence, which is never nil). -/
def Node.Clone : Node → Node
  | .mk h hs l r p => .mk h hs l r p

/-- `type Leaves []Leaf` -/
abbrev Leaves := List Node

/-- `type Tree [][]Hash` — the Level Table: one list of digests per level,
level 0 (the leaves) first. -/
abbrev Tree := List (List Hash)

/-- `func (obj *Leaves) Length() int` (0 on a nil receiver). -/
def Leaves.Length (obj : Leaves) : Nat := obj.length

/-- `func (obj *Leaves) IsEmpty() bool` -/
def Leaves.IsEmpty (obj : Leaves) : Bool := obj.Length == 0

/-- `func (obj *Leaves) LastLeaf() *Leaf` -/
def Leaves.LastLeaf (obj : Leaves) : NodePtr :=
  match obj.getLast? with
  | none => .nil
  | some leaf => .ptr leaf

/-- `func (obj *Leaves) Hash(h IHashFunc) error` — overwrites each leaf's
digest with `h(payload)`; the pure digest provider never fails. -/
def Leaves.Hash (h : HashF) (obj : Leaves) : Leaves :=
  obj.map fun leaf => .mk leaf.Height (h leaf.Payload) leaf.Left leaf.Right leaf.Payload

/-- One pass of the `for i := 0; i < length; i += 2` loop body of
`buildBranch`: combine nodes two at a time into parent branches; a trailing
unpaired node (`length == i+1`, odd length) is paired with itself
(`right = i`).  Each branch is
`Node{Height: left.Height+1, Hash: h(left.Hash ++ right.Hash), Left, Right}`. -/
def levelStep (h : HashF) : List Node → List Node
  | [] => []
  | [a] => [.mk (a.Height + 1) (h (a.Hash ++ a.Hash)) (.ptr a) (.ptr a) []]
  | a :: b :: rest =>
      .mk (a.Height + 1) (h (a.Hash ++ b.Hash)) (.ptr a) (.ptr b) [] :: levelStep h rest

/-- The recursion of
`func (obj *Leaves) buildBranch(nodes []Node, tree *Tree, h IHashFunc) (*Root, error)`
with an explicit step budget: combine `nodes` pairwise into the next level
(`levelStep`), append that level's digests to the Level Table, recurse; at
`length == 2` return the just-built branch as the root.  Each recursion
strictly shrinks the node list whenever it has two or more nodes, so
`nodes.length` steps always suffice; on fewer than two nodes the Go
recursion re-enters itself forever, which is the exhausted-budget `none`.
The receiver `obj` is unused by the Go body and omitted. -/
def buildBranchF (h : HashF) : Nat → List Node → Tree → Option (Root × Tree)
  | 0, _, _ => none
  | fuel + 1, nodes, tree =>
    if nodes.length < 2 then none
    else
      let branches := levelStep h nodes
      let hashSet : List Hash := branches.map Node.Hash
      if nodes.length = 2 then
        match branches with
        | b :: _ => some (b, tree ++ [hashSet])
        | [] => none
      else
        buildBranchF h fuel branches (tree ++ [hashSet])

/-- `buildBranch`, with the always-sufficient budget filled in. -/
def buildBranch (h : HashF) (nodes : List Node) (tree : Tree) : Option (Root × Tree) :=
  buildBranchF h nodes.length nodes tree

/-- `func (obj *Leaves) initTree() (*Tree, error)` — a one-level table
holding the leaf digests in leaf order. -/
def initTree (obj : Leaves) : Except String Tree :=
  if obj.Length = 0 then .error "not found"
  else .ok [obj.map Node.Hash]

/-- The padding block of `BuildTree`:
`if obj.Length()%2 == 1 { clone := obj.LastLeaf().Clone(); *obj = append(*obj, *clone) }` —
on an odd count, append one clone of the last leaf.  (`LastLeaf` is nil only
on an empty sequence, whose count is even, so the `.nil` arm is unreachable.) -/
def padLeaves (obj : Leaves) : Leaves :=
  if obj.Length % 2 = 1 then
    match obj.LastLeaf with
    | .ptr leaf => obj ++ [leaf.Clone]
    | .nil => obj
  else obj

/-- `func (obj *Leaves) BuildTree(opt ...OptionFunc) (*Tree, *Root, error)`.
Options are the explicit arguments `h` (default Keccak-256) and `skipHash`
(default false).  Go mutates the caller's leaf slice (hashing, padding); the
model returns the updated sequence as the first component. -/
def Leaves.BuildTree (h : HashF) (skipHash : Bool) (obj : Leaves) :
    Except String (Leaves × Tree × Root) :=
  if obj.IsEmpty then .error "not found leaf"
  else
    let hashed := if skipHash then obj else Leaves.Hash h obj
    let padded := padLeaves hashed
    match initTree padded with
    | .error e => .error e
    | .ok tree =>
      match buildBranch h padded tree with
      | some (root, tree2) => .ok (padded, tree2, root)
      | none => .error "unreachable"

/-- `func (tree *Tree) Height() uint64` — number of levels (0 for nil). -/
def Tree.Height (tree : Tree) : Nat := tree.length

/-- `func (tree *Tree) Width(y uint64) uint64` — `len((*tree)[y])`.  The Go
body indexes `(*tree)[y]` without a range check, so an out-of-range `y` on a
non-empty tree is a runtime panic, not a 0 result. -/
def Tree.Width (tree : Tree) (y : Nat) : GoRes Nat :=
  if Tree.Height tree = 0 then .ok 0
  else
    match tree.get? y with
    | some lvl => .ok lvl.length
    | none => .panic

/-- `func (tree *Tree) Y() uint64` — the top level index `Height() - 1`. -/
def Tree.Y (tree : Tree) : Nat :=
  if Tree.Height tree = 0 then 0 else Tree.Height tree - 1

/-- `func (tree *Tree) X(y uint64) uint64` — `Width(y) - 1`.  Go's uint64
subtraction wraps to `2^64 - 1` on a zero-width level; `Nat` truncates to 0
instead.  Built trees have no empty level, so no claim reaches that point. -/
def Tree.X (tree : Tree) (y : Nat) : GoRes Nat :=
  if Tree.Height tree = 0 then .ok 0
  else
    match Tree.Width tree y with
    | .ok w => .ok (w - 1)
    | .err e => .err e
    | .panic => .panic

/-- `func (tree *Tree) GetRootHash() ([]byte, error)` — `(*tree)[tree.Y()][0]`,
with only the emptiness check; an empty top level would panic. -/
def Tree.GetRootHash (tree : Tree) : GoRes Hash :=
  if Tree.Height tree = 0 then .err "tree is empty"
  else
    match (tree.get? (Tree.Y tree)).bind fun lvl => lvl.get? 0 with
    | some hsh => .ok hsh
    | none => .panic

/-- `func (tree *Tree) GetHash(y uint64, x uint64) ([]byte, error)` — digest
at `(y, x)`, after the three guard checks of the Go body. -/
def Tree.GetHash (tree : Tree) (y x : Nat) : GoRes Hash :=
  if Tree.Height tree = 0 then .err "tree is empty"
  else if Tree.Y tree < y then .err "invalid y"
  else
    match Tree.X tree y with
    | .ok xMax =>
        if xMax < x then .err "invalid x"
        else
          match (tree.get? y).bind fun lvl => lvl.get? x with
          | some hsh => .ok hsh
          | none => .panic
    | .err e => .err e
    | .panic => .panic

/-- `type PoN [2]uint64` — `(y, x)`: `pon.1` is the level, `pon.2` the offset. -/
abbrev PoN := Nat × Nat

/-- `type PoNs []PoN` — positions of nodes, leaf to root. -/
abbrev PoNs := List PoN

/-- `func (pon PoN) GetParent() PoN` -/
def PoN.GetParent (pon : PoN) : PoN := (pon.1 + 1, pon.2 / 2)

/-- The recursion of `func (pons *PoNs) GetPath(height, y, x uint64)` with an
explicit step budget.  Each Go recursion moves `y` one level up, so
`height - y` steps always suffice when `y ≤ height - 1`; on other inputs the
Go recursion never reaches its stopping level (for `height = 0` only after
`y` wraps the whole uint64 range), and the model stops when the budget runs
out. -/
def GetPathF (fuel : Nat) (height y x : Nat) (pons : PoNs) : PoNs :=
  match fuel with
  | 0 => pons
  | fuel' + 1 =>
    let pon : PoN := (y, if x % 2 = 0 then x + 1 else x - 1)
    if y = height - 1 then pons
    else GetPathF fuel' height (PoN.GetParent pon).1 (PoN.GetParent pon).2 (pons ++ [pon])

/-- `func (pons *PoNs) GetPath(height uint64, y uint64, x uint64)` — appends
the sibling positions from `(y, x)` up to just below the root to `pons`. -/
def PoNs.GetPath (height y x : Nat) (pons : PoNs) : PoNs :=
  GetPathF (height - y) height y x pons

/-- The `for _, pon := range *merklePath` loop of `Prove`: look the sibling
up at each position and fold it into the running digest, left or right of it
according to the sibling offset's parity. -/
def proveLoop (h : HashF) (tree : Tree) : PoNs → Hash → GoRes Hash
  | [], digest => .ok digest
  | pon :: rest, digest =>
    match Tree.GetHash tree pon.1 pon.2 with
    | .ok brother =>
        proveLoop h tree rest
          (if pon.2 % 2 = 0 then h (brother ++ digest) else h (digest ++ brother))
    | .err e => .err e
    | .panic => .panic

/-- `func (tree *Tree) Prove(merklePath *PoNs, unverifiedHash []byte, h IHashFunc) (bool, error)` —
folds the path, then compares the result to the stored root digest
(`bytes.Compare(rootHash, digest) == 0` is byte-list equality). -/
def Tree.Prove (tree : Tree) (merklePath : PoNs) (unverifiedHash : Hash) (h : HashF) :
    GoRes Bool :=
  match proveLoop h tree merklePath unverifiedHash with
  | .ok digest =>
    match Tree.GetRootHash tree with
    | .ok rootHash => .ok (rootHash == digest)
    | .err e => .err e
    | .panic => .panic
  | .err e => .err e
  | .panic => .panic

/-! ## The serializer

`json.Marshal` renders a value to bytes.  The byte rendering of a JSON
document is a deterministic, injective function of its structure, so the
model keeps the structure (`Json`) and byte-identity of outputs is equality
of `Json` values.  A `[]byte` field renders as its base64 string, kept here
as the bytes themselves under the `str` constructor (base64 is injective and
exactly invertible, which is all the round-trip needs). -/

inductive Json where
  | null : Json
  | num : Int → Json
  | str : List Nat → Json
  | arr : List Json → Json
  | obj : List (String × Json) → Json

mutual
/-- `json.Marshal` on a `Node`: an object with the five exported fields in
declaration order, children recursively, nil pointers as `null`. -/
def Node.marshalJson : Node → Json
  | .mk h hs l r p =>
    .obj [("Height", .num h), ("Hash", .str hs), ("Left", NodePtr.marshalJson l),
          ("Right", NodePtr.marshalJson r), ("Payload", .str p)]
def NodePtr.marshalJson : NodePtr → Json
  | .nil => .null
  | .ptr n => Node.marshalJson n
end

/-- `func (node *Root) Marshal() ([]byte, error)` — `json.Marshal(node)`;
the pure encoder cannot fail on this type. -/
def Root.Marshal (node : Node) : Json := Node.marshalJson node

/-- `func (tree *Tree) Marshal() ([]byte, error)` — an error on a nil
receiver, else `json.Marshal(tree)`: an array of arrays of digest strings.
The nil receiver is `none`. -/
def Tree.Marshal : Option Tree → Except String Json
  | none => .error "tree is empty"
  | some tree => .ok (.arr (tree.map fun lvl => .arr (lvl.map Json.str)))

/-- Modelled from the spec: the repository serializes with the standard
library's `encoding/json` and the decode direction (`json.Unmarshal` into a
`Node`, §4.6 "unmarshal(bytes) -> Root|LevelTable, a structural,
field-preserving encoding") has no code under `src/`.  This decoder inverts
the structural encoding on the canonical field order `Marshal` emits:
`null` is a nil pointer, an object with the five fields rebuilds the node,
anything else is a decoding error (`none`). -/
def Json.unmarshalNodePtr : Json → Option NodePtr
  | .null => some .nil
  | .obj [("Height", .num h), ("Hash", .str hs), ("Left", jl), ("Right", jr),
          ("Payload", .str p)] =>
    match Json.unmarshalNodePtr jl, Json.unmarshalNodePtr jr with
    | some l, some r => some (.ptr (.mk h hs l r p))
    | _, _ => none
  | _ => none

/-- Modelled from the spec: `json.Unmarshal` into a (non-pointer) `Root`,
which fails on `null` and otherwise decodes the node object. -/
def Json.unmarshalNode (j : Json) : Option Node :=
  match Json.unmarshalNodePtr j with
  | some (.ptr n) => some n
  | _ => none

/-- Modelled from the spec: decoding a run of digest strings (one Level
Table level's entries); any non-string element is a decoding error. -/
def Json.unmarshalStrList : List Json → Option (List Hash)
  | [] => some []
  | .str bs :: rest =>
    match Json.unmarshalStrList rest with
    | some tl => some (bs :: tl)
    | none => none
  | _ => none

/-- Modelled from the spec: `json.Unmarshal` of one Level Table level — an
array of digest strings. -/
def Json.unmarshalLevel : Json → Option (List Hash)
  | .arr elems => Json.unmarshalStrList elems
  | _ => none

/-- Modelled from the spec: decoding the list of levels. -/
def Json.unmarshalLevels : List Json → Option (List (List Hash))
  | [] => some []
  | j :: rest =>
    match Json.unmarshalLevel j, Json.unmarshalLevels rest with
    | some lvl, some tl => some (lvl :: tl)
    | _, _ => none

/-- Modelled from the spec: `json.Unmarshal` into a `Tree` — an array of
levels. -/
def Json.unmarshalTree : Json → Option Tree
  | .arr lvls => Json.unmarshalLevels lvls
  | _ => none

/-! ## Pure descriptions used to state the claims -/

/-- One level of digests, as `buildBranch` appends it to the Level Table:
pairwise `h (a ++ b)`, a trailing unpaired digest combined with itself. -/
def hashLevel (h : HashF) : List Hash → List Hash
  | [] => []
  | [a] => [h (a ++ a)]
  | a :: b :: rest => h (a ++ b) :: hashLevel h rest

/-- The levels `buildBranch` appends on top of a level `prev`: each is the
`hashLevel` of the one below it, and the sequence stops right after the
two-digest level (whose `hashLevel` is the single root digest). -/
def LevelChain (h : HashF) : List Hash → List (List Hash) → Prop
  | _, [] => False
  | prev, [lvl] => lvl = hashLevel h prev ∧ prev.length = 2
  | prev, lvl :: l2 :: rest => lvl = hashLevel h prev ∧ LevelChain h lvl (l2 :: rest)

/-- Each level of the table is the `hashLevel` of the one below it. -/
def HashChain (h : HashF) : List (List Hash) → Prop
  | [] => True
  | [_] => True
  | a :: b :: rest => b = hashLevel h a ∧ HashChain h (b :: rest)

/-- The even/odd sibling of an offset, as `GetPath` computes it. -/
def sibOf (x : Nat) : Nat := if x % 2 = 0 then x + 1 else x - 1

/-- The pure shape of the path `GetPath` appends: `n` positions, one per
level starting at `y`, each holding the sibling offset, the climb halving
the offset at each level. -/
def pathFrom : Nat → Nat → Nat → PoNs
  | 0, _, _ => []
  | n + 1, y, x => (y, sibOf x) :: pathFrom n (y + 1) (sibOf x / 2)

/-- The digest `Prove` recomputes when every lookup on the path succeeds:
fold each sibling into the running digest, on the side its offset's parity
dictates. -/
def recompute (h : HashF) (tree : Tree) (path : PoNs) (d : Hash) : Hash :=
  path.foldl (fun dig pon =>
    let bro := (tree.getD pon.1 []).getD pon.2 []
    if pon.2 % 2 = 0 then h (bro ++ dig) else h (dig ++ bro)) d

/-- A position the addressing layer accepts: level in range, offset within
that level's width. -/
def InRange (tree : Tree) (pon : PoN) : Prop :=
  pon.1 < tree.length ∧ pon.2 < (tree.getD pon.1 []).length

/-- No level of the table is empty (true of every built tree); rules the
panic outcomes out of the addressing layer. -/
def WellFormed (tree : Tree) : Prop :=
  ∀ lvl ∈ tree, lvl ≠ []

instance (tree : Tree) (pon : PoN) : Decidable (InRange tree pon) :=
  inferInstanceAs (Decidable (_ ∧ _))

instance (tree : Tree) : Decidable (WellFormed tree) :=
  inferInstanceAs (Decidable (∀ lvl ∈ tree, lvl ≠ []))

/-! ## Concrete instances used by witnesses and counterexamples -/

deriving instance DecidableEq for Except

/-- The leaf sequence a successful concrete build leaves behind (selector for
stating concrete facts without spelling the whole triple out). -/
def builtLeaves (h : HashF) (skipHash : Bool) (obj : Leaves) : Leaves :=
  match Leaves.BuildTree h skipHash obj with
  | .ok (padded, _, _) => padded
  | .error _ => []

/-- The Level Table of a successful concrete build. -/
def builtTree (h : HashF) (skipHash : Bool) (obj : Leaves) : Tree :=
  match Leaves.BuildTree h skipHash obj with
  | .ok (_, tree, _) => tree
  | .error _ => []

/-- The root node of a successful concrete build. -/
def builtRoot (h : HashF) (skipHash : Bool) (obj : Leaves) : Root :=
  match Leaves.BuildTree h skipHash obj with
  | .ok (_, _, root) => root
  | .error _ => default

/-- A small concrete digest function for concrete runs: sum of bytes mod
1000, then the length — any computable function does. -/
def sumHash : HashF := fun l => [(l.foldl (fun a b => a + b) 0) % 1000, l.length]

/-- A leaf carrying a one-byte pre-set digest `d` (used with `skipHash`). -/
def leafD (d : Nat) : Node := .mk 0 [d] .nil .nil []

/-- Six pre-hashed leaves: the smallest leaf count whose table has an
odd-width intermediate level (6 → 3 → 2 → 1). -/
def sixLeaves : Leaves := [leafD 0, leafD 1, leafD 2, leafD 3, leafD 4, leafD 5]

/-! # Theorems

First the general lemmas about the embedded program, then one theorem per
claim (with witnesses and counterexamples where due). -/

theorem levelStep_length (h : HashF) :
    ∀ nodes : List Node, (levelStep h nodes).length = (nodes.length + 1) / 2
  | [] => by simp [levelStep]
  | [_] => by simp [levelStep]
  | _ :: _ :: rest => by
      simp only [levelStep, List.length_cons, levelStep_length h rest]
      omega

theorem hashLevel_length (h : HashF) :
    ∀ l : List Hash, (hashLevel h l).length = (l.length + 1) / 2
  | [] => by simp [hashLevel]
  | [_] => by simp [hashLevel]
  | _ :: _ :: rest => by
      simp only [hashLevel, List.length_cons, hashLevel_length h rest]
      omega

theorem levelStep_map_hash (h : HashF) :
    ∀ nodes : List Node,
      (levelStep h nodes).map Node.Hash = hashLevel h (nodes.map Node.Hash)
  | [] => by simp [levelStep, hashLevel]
  | [a] => by simp [levelStep, hashLevel, Node.Hash]
  | a :: b :: rest => by
      simp [levelStep, hashLevel, Node.Hash, levelStep_map_hash h rest]

theorem LevelChain.ne_nil {h : HashF} {prev : List Hash} {ext : List (List Hash)}
    (hc : LevelChain h prev ext) : ext ≠ [] := by
  cases ext with
  | nil => simp [LevelChain] at hc
  | cons a l => simp

/-- What one `buildBranch` pass adds to the Level Table, by induction on the
step budget: on at least two nodes (and enough budget) it succeeds, appends
exactly a `LevelChain` of new levels above the digests of `nodes`, and the
topmost appended level is the singleton holding the returned root's digest. -/
theorem buildBranchF_spec (h : HashF) :
    ∀ (fuel : Nat) (nodes : List Node) (tree : Tree),
      2 ≤ nodes.length → nodes.length ≤ fuel →
      ∃ root ext, buildBranchF h fuel nodes tree = some (root, tree ++ ext) ∧
        LevelChain h (nodes.map Node.Hash) ext ∧
        ext.getLast? = some [root.Hash] := by
  intro fuel
  induction fuel with
  | zero =>
    intro nodes tree h2 hf
    omega
  | succ fuel ih =>
    intro nodes tree h2 hf
    simp only [buildBranchF, if_neg (by omega : ¬ nodes.length < 2)]
    by_cases heq2 : nodes.length = 2
    · match nodes, heq2 with
      | [a, b], _ =>
        refine ⟨.mk (a.Height + 1) (h (a.Hash ++ b.Hash)) (.ptr a) (.ptr b) [],
          [[h (a.Hash ++ b.Hash)]], ?_, ?_, ?_⟩
        · simp [levelStep, Node.Hash]
        · simp [LevelChain, hashLevel]
        · simp [Node.Hash]
    · simp only [if_neg heq2]
      have hstep : (levelStep h nodes).length = (nodes.length + 1) / 2 :=
        levelStep_length h nodes
      obtain ⟨root, ext, heqn, hchain, hlast⟩ := ih (levelStep h nodes)
        (tree ++ [(levelStep h nodes).map Node.Hash]) (by omega) (by omega)
      refine ⟨root, ((levelStep h nodes).map Node.Hash) :: ext, ?_, ?_, ?_⟩
      · rw [heqn, List.append_assoc]
        rfl
      · obtain ⟨e, es, rfl⟩ : ∃ e es, ext = e :: es := by
          cases ext with
          | nil => exact absurd rfl hchain.ne_nil
          | cons e es => exact ⟨e, es, rfl⟩
        rw [levelStep_map_hash h nodes] at hchain ⊢
        exact ⟨rfl, hchain⟩
      · obtain ⟨e, es, rfl⟩ : ∃ e es, ext = e :: es := by
          cases ext with
          | nil => exact absurd rfl hchain.ne_nil
          | cons e es => exact ⟨e, es, rfl⟩
        rw [← hlast]
        rfl

theorem buildBranch_spec (h : HashF) (nodes : List Node) (tree : Tree)
    (hlen : 2 ≤ nodes.length) :
    ∃ root ext, buildBranch h nodes tree = some (root, tree ++ ext) ∧
      LevelChain h (nodes.map Node.Hash) ext ∧
      ext.getLast? = some [root.Hash] :=
  buildBranchF_spec h nodes.length nodes tree hlen le_rfl

/-- Cloning copies every field, so the clone equals the original as a value. -/
theorem Node.Clone_eq (n : Node) : n.Clone = n := by
  cases n
  rfl

theorem padLeaves_of_odd (obj : Leaves) (hodd : obj.length % 2 = 1) :
    ∃ last, obj.getLast? = some last ∧ padLeaves obj = obj ++ [last] := by
  have hne : obj ≠ [] := by
    intro hnil
    rw [hnil] at hodd
    simp at hodd
  obtain ⟨leaf, hleaf⟩ := Option.isSome_iff_exists.mp (List.getLast?_isSome.mpr hne)
  refine ⟨leaf, hleaf, ?_⟩
  unfold padLeaves
  rw [if_pos (show Leaves.Length obj % 2 = 1 from hodd)]
  simp [Leaves.LastLeaf, hleaf, Node.Clone_eq]

theorem padLeaves_of_even (obj : Leaves) (heven : obj.length % 2 = 0) :
    padLeaves obj = obj := by
  unfold padLeaves
  rw [if_neg]
  simp only [Leaves.Length]
  omega

theorem padLeaves_even (obj : Leaves) : (padLeaves obj).length % 2 = 0 := by
  rcases Nat.mod_two_eq_zero_or_one obj.length with he | ho
  · rw [padLeaves_of_even obj he]
    exact he
  · obtain ⟨last, _, hp⟩ := padLeaves_of_odd obj ho
    rw [hp]
    simp only [List.length_append, List.length_singleton]
    omega

theorem padLeaves_ge_two (obj : Leaves) (hne : obj ≠ []) :
    2 ≤ (padLeaves obj).length := by
  have heven := padLeaves_even obj
  have hpos : 0 < obj.length := List.length_pos.mpr hne
  have h1 : obj.length ≤ (padLeaves obj).length := by
    rcases Nat.mod_two_eq_zero_or_one obj.length with he | ho
    · rw [padLeaves_of_even obj he]
    · obtain ⟨last, _, hp⟩ := padLeaves_of_odd obj ho
      rw [hp]
      simp
  omega

theorem LevelChain.hashChain {h : HashF} :
    ∀ {prev : List Hash} {ext : List (List Hash)},
      LevelChain h prev ext → HashChain h (prev :: ext)
  | _, [], hc => by simp [LevelChain] at hc
  | prev, [lvl], hc => by
      simp only [LevelChain] at hc
      simp [HashChain, hc.1]
  | prev, lvl :: l2 :: rest, hc => by
      simp only [LevelChain] at hc
      exact ⟨hc.1, LevelChain.hashChain hc.2⟩

theorem hashChain_getD (h : HashF) :
    ∀ (t : List (List Hash)), HashChain h t →
      ∀ i, i + 1 < t.length → t.getD (i + 1) [] = hashLevel h (t.getD i [])
  | [], _, i, hi => by simp at hi
  | [_], _, i, hi => by simp at hi
  | a :: b :: rest, hc, 0, _ => by
      simpa [List.getD] using hc.1
  | a :: b :: rest, hc, i + 1, hi => by
      have := hashChain_getD h (b :: rest) hc.2 i (by simpa using hi)
      simpa [List.getD] using this

/-- `BuildTree` inversion: a successful build returned the padded leaf
sequence (even count, at least two), a table whose level 0 is the padded
leaves' digests with a `LevelChain` above it, and a root whose digest is the
single entry of the topmost level. -/
theorem BuildTree_ok_inv (h : HashF) (skipHash : Bool) (obj padded : Leaves)
    (tree : Tree) (root : Root)
    (hok : Leaves.BuildTree h skipHash obj = .ok (padded, tree, root)) :
    padded = padLeaves (if skipHash then obj else Leaves.Hash h obj) ∧
    2 ≤ padded.length ∧ padded.length % 2 = 0 ∧
    ∃ ext, tree = (padded.map Node.Hash) :: ext ∧
      LevelChain h (padded.map Node.Hash) ext ∧
      ext.getLast? = some [root.Hash] := by
  by_cases hne : obj.IsEmpty
  · simp [Leaves.BuildTree, hne] at hok
  · have hobj : obj ≠ [] := by
      intro hnil
      rw [hnil] at hne
      simp [Leaves.IsEmpty, Leaves.Length] at hne
    simp only [Bool.not_eq_true] at hne
    simp only [Leaves.BuildTree, hne, Bool.false_eq_true, if_false] at hok
    set hashed := if skipHash then obj else Leaves.Hash h obj with hhashed
    have hashedne : hashed ≠ [] := by
      rw [hhashed]
      cases skipHash <;> simp [Leaves.Hash, hobj]
    have h2 : 2 ≤ (padLeaves hashed).length := padLeaves_ge_two hashed hashedne
    have hinit : initTree (padLeaves hashed) = .ok [(padLeaves hashed).map Node.Hash] := by
      unfold initTree
      rw [if_neg]
      simp only [Leaves.Length]
      omega
    rw [hinit] at hok
    dsimp only at hok
    obtain ⟨root2, ext, heq, hchain, hlast⟩ :=
      buildBranch_spec h (padLeaves hashed) [(padLeaves hashed).map Node.Hash] h2
    rw [heq] at hok
    simp only [Except.ok.injEq, Prod.mk.injEq] at hok
    obtain ⟨hp, ht, hr⟩ := hok
    subst hp
    subst ht
    subst hr
    exact ⟨rfl, h2, padLeaves_even hashed,
      ext, by simp, hchain, hlast⟩

/-- On any non-empty leaf sequence, `BuildTree` succeeds. -/
theorem BuildTree_ok (h : HashF) (skipHash : Bool) (obj : Leaves) (hne : obj ≠ []) :
    ∃ padded tree root, Leaves.BuildTree h skipHash obj = .ok (padded, tree, root) := by
  have hne' : obj.IsEmpty = false := by
    simp [Leaves.IsEmpty, Leaves.Length, hne]
  simp only [Leaves.BuildTree, hne', Bool.false_eq_true, if_false]
  set hashed := if skipHash then obj else Leaves.Hash h obj with hhashed
  have hashedne : hashed ≠ [] := by
    rw [hhashed]
    cases skipHash <;> simp [Leaves.Hash, hne]
  have h2 : 2 ≤ (padLeaves hashed).length := padLeaves_ge_two hashed hashedne
  have hinit : initTree (padLeaves hashed) = .ok [(padLeaves hashed).map Node.Hash] := by
    unfold initTree
    rw [if_neg]
    simp only [Leaves.Length]
    omega
  rw [hinit]
  dsimp only
  obtain ⟨root2, ext, heq, _, _⟩ :=
    buildBranch_spec h (padLeaves hashed) [(padLeaves hashed).map Node.Hash] h2
  rw [heq]
  exact ⟨_, _, _, rfl⟩

theorem pathFrom_length : ∀ n y x, (pathFrom n y x).length = n
  | 0, _, _ => rfl
  | n + 1, y, x => by simp [pathFrom, pathFrom_length n]

theorem pathFrom_levels :
    ∀ n y x k, k < n → ((pathFrom n y x).get? k).map Prod.fst = some (y + k)
  | 0, _, _, k, hk => by omega
  | n + 1, y, x, 0, _ => by simp [pathFrom]
  | n + 1, y, x, k + 1, hk => by
      have h1 := pathFrom_levels n (y + 1) (sibOf x / 2) k (by omega)
      simp only [pathFrom, List.get?_cons_succ]
      rw [h1]
      congr 1
      omega

/-- The accumulator plays no role: `GetPathF` only ever appends. -/
theorem getPathF_append (fuel : Nat) :
    ∀ (height y x : Nat) (pons : PoNs),
      GetPathF fuel height y x pons = pons ++ GetPathF fuel height y x [] := by
  induction fuel with
  | zero => intro height y x pons; simp [GetPathF]
  | succ fuel ih =>
    intro height y x pons
    simp only [GetPathF]
    by_cases hy : y = height - 1
    · simp [hy]
    · rw [if_neg hy, if_neg hy, ih _ _ _ (pons ++ _), ih _ _ _ ([] ++ _)]
      simp

/-- `GetPath` from a position at or below the top level appends exactly the
`pathFrom` positions: one sibling per level from `y` up to `height - 2`. -/
theorem GetPath_eq_pathFrom (height : Nat) (hh : 1 ≤ height) :
    ∀ n y x, y ≤ height - 1 → n = height - 1 - y →
      PoNs.GetPath height y x [] = pathFrom n y x := by
  intro n
  induction n with
  | zero =>
    intro y x hy hn
    have hytop : y = height - 1 := by omega
    subst hytop
    have hf : height - (height - 1) = 1 := by omega
    unfold PoNs.GetPath
    rw [hf]
    simp [GetPathF, pathFrom]
  | succ n ih =>
    intro y x hy hn
    have hylt : ¬ y = height - 1 := by omega
    have hf : height - y = (height - (y + 1)) + 1 := by omega
    unfold PoNs.GetPath
    rw [hf]
    simp only [GetPathF]
    rw [if_neg hylt, getPathF_append]
    have := ih (y + 1) (sibOf x / 2) (by omega) (by omega)
    unfold PoNs.GetPath at this
    simp only [pathFrom, PoN.GetParent, sibOf] at this ⊢
    rw [this]
    simp

theorem list_get?_getD {α : Type} (l : List α) (n : Nat) (d : α) (hn : n < l.length) :
    l.get? n = some (l.getD n d) := by
  rw [List.getD_eq_getElem l d hn, List.get?_eq_getElem?, List.getElem?_eq_getElem hn]

theorem Width_ok (tree : Tree) (y : Nat) (hy : y < tree.length) :
    Tree.Width tree y = .ok (tree.getD y []).length := by
  unfold Tree.Width Tree.Height
  rw [if_neg (by omega), list_get?_getD tree y [] hy]

theorem GetHash_ok (tree : Tree) (y x : Nat) (hy : y < tree.length)
    (hx : x < (tree.getD y []).length) :
    Tree.GetHash tree y x = .ok ((tree.getD y []).getD x []) := by
  have hlen : ¬ tree.length = 0 := by omega
  have hY : Tree.Y tree = tree.length - 1 := by
    unfold Tree.Y Tree.Height
    rw [if_neg hlen]
  have hX : Tree.X tree y = .ok ((tree.getD y []).length - 1) := by
    unfold Tree.X
    simp only [Tree.Height]
    rw [if_neg hlen, Width_ok tree y hy]
  unfold Tree.GetHash
  simp only [Tree.Height]
  rw [if_neg hlen, if_neg (by rw [hY]; omega), hX]
  dsimp only
  rw [if_neg (by omega), list_get?_getD tree y [] hy]
  simp only [Option.some_bind]
  rw [list_get?_getD (tree.getD y []) x [] hx]

theorem GetRootHash_ok (tree : Tree) (r : Hash) (hlast : tree.getLast? = some [r]) :
    Tree.GetRootHash tree = .ok r := by
  have hne : tree ≠ [] := by
    intro hnil
    rw [hnil] at hlast
    simp at hlast
  have hlen : ¬ tree.length = 0 := by
    simpa [List.length_eq_zero] using hne
  have hY : Tree.Y tree = tree.length - 1 := by
    unfold Tree.Y Tree.Height
    rw [if_neg hlen]
  have hget : tree.get? (tree.length - 1) = some [r] := by
    rw [← hlast, List.getLast?_eq_get?]
  unfold Tree.GetRootHash
  simp only [Tree.Height]
  rw [if_neg hlen, hY, hget]
  rfl

/-- The entry at `m` of a hashed-up level is the combination of the pair
`(2m, 2m + 1)` below it (both present). -/
theorem hashLevel_getD (h : HashF) :
    ∀ (l : List Hash) (m : Nat), 2 * m + 1 < l.length →
      (hashLevel h l).getD m [] = h (l.getD (2 * m) [] ++ l.getD (2 * m + 1) [])
  | [], m, hm => by simp at hm
  | [_], m, hm => by
      simp only [List.length_singleton] at hm
      omega
  | a :: b :: rest, 0, _ => by simp [hashLevel]
  | a :: b :: rest, m + 1, hm => by
      have hlt : 2 * m + 1 < rest.length := by
        simp only [List.length_cons] at hm
        omega
      have ih := hashLevel_getD h rest m hlt
      have e1 : 2 * (m + 1) = 2 * m + 1 + 1 := by ring
      rw [e1]
      simpa [hashLevel, List.getD_cons_succ] using ih

/-- The parity split of the sibling offset. -/
theorem sibOf_cases (x : Nat) :
    (x % 2 = 0 ∧ sibOf x = x + 1) ∨ (x % 2 = 1 ∧ sibOf x = x - 1) := by
  unfold sibOf
  rcases Nat.mod_two_eq_zero_or_one x with h0 | h1
  · exact Or.inl ⟨h0, by rw [if_pos h0]⟩
  · exact Or.inr ⟨h1, by rw [if_neg (by omega)]⟩

/-- Climbing the derived path: folding the sibling digests from any in-range
position, with every sibling on the path in range, lands exactly on the
single top-level digest. -/
theorem proveLoop_climb (h : HashF) (tree : Tree) (hchain : HashChain h tree)
    (htop : (tree.getD (tree.length - 1) []).length = 1) :
    ∀ n y x, y < tree.length → n = tree.length - 1 - y →
      x < (tree.getD y []).length →
      (∀ pon ∈ pathFrom n y x, pon.2 < (tree.getD pon.1 []).length) →
      proveLoop h tree (pathFrom n y x) ((tree.getD y []).getD x []) =
        .ok ((tree.getD (tree.length - 1) []).getD 0 []) := by
  intro n
  induction n with
  | zero =>
    intro y x hy hn hx _
    have hyt : y = tree.length - 1 := by omega
    subst hyt
    have hx0 : x = 0 := by omega
    subst hx0
    simp [pathFrom, proveLoop]
  | succ n ih =>
    intro y x hy hn hx hrange
    have hylt : y < tree.length - 1 := by omega
    have hs : sibOf x < (tree.getD y []).length := by
      have := hrange (y, sibOf x) (by simp [pathFrom])
      simpa using this
    have hget := GetHash_ok tree y (sibOf x) hy hs
    have hnext : tree.getD (y + 1) [] = hashLevel h (tree.getD y []) :=
      hashChain_getD h tree hchain y (by omega)
    have hsc := sibOf_cases x
    have hpair : 2 * (x / 2) + 1 < (tree.getD y []).length := by
      rcases hsc with ⟨he, hsx⟩ | ⟨ho, hsx⟩ <;> omega
    have hdig : (if (sibOf x) % 2 = 0
          then h ((tree.getD y []).getD (sibOf x) [] ++ (tree.getD y []).getD x [])
          else h ((tree.getD y []).getD x [] ++ (tree.getD y []).getD (sibOf x) []))
        = (tree.getD (y + 1) []).getD (x / 2) [] := by
      rw [hnext, hashLevel_getD h _ (x / 2) hpair]
      rcases hsc with ⟨he, hsx⟩ | ⟨ho, hsx⟩
      · rw [hsx, if_neg (by omega)]
        have e1 : 2 * (x / 2) = x := by omega
        rw [e1]
      · rw [hsx, if_pos (by omega)]
        have e1 : 2 * (x / 2) = x - 1 := by omega
        rw [e1]
        have e3 : x - 1 + 1 = x := by omega
        rw [e3]
    have hhalf : sibOf x / 2 = x / 2 := by
      rcases hsc with ⟨he, hsx⟩ | ⟨ho, hsx⟩ <;> omega
    have hx2 : x / 2 < (tree.getD (y + 1) []).length := by
      rw [hnext, hashLevel_length]
      omega
    simp only [pathFrom, proveLoop, hget, hhalf]
    rw [hdig]
    refine ih (y + 1) (x / 2) (by omega) (by omega) hx2 ?_
    intro pon hpon
    refine hrange pon ?_
    simp only [pathFrom, hhalf, List.mem_cons]
    exact Or.inr hpon

/-! ## Serializer round trips -/

mutual
theorem nodePtr_marshal_roundtrip :
    ∀ q : NodePtr, Json.unmarshalNodePtr (NodePtr.marshalJson q) = some q
  | .nil => rfl
  | .ptr n => node_marshal_roundtrip n
theorem node_marshal_roundtrip :
    ∀ n : Node, Json.unmarshalNodePtr (Node.marshalJson n) = some (.ptr n)
  | .mk h hs l r p => by
    simp only [Node.marshalJson, Json.unmarshalNodePtr]
    rw [nodePtr_marshal_roundtrip l, nodePtr_marshal_roundtrip r]
end

theorem unmarshalNode_marshal (n : Node) :
    Json.unmarshalNode (Node.marshalJson n) = some n := by
  unfold Json.unmarshalNode
  rw [node_marshal_roundtrip n]

theorem unmarshalStrList_roundtrip (lvl : List Hash) :
    Json.unmarshalStrList (lvl.map Json.str) = some lvl := by
  induction lvl with
  | nil => rfl
  | cons a l ih => simp [Json.unmarshalStrList, ih]

theorem unmarshalLevel_roundtrip (lvl : List Hash) :
    Json.unmarshalLevel (Json.arr (lvl.map Json.str)) = some lvl := by
  simp only [Json.unmarshalLevel]
  exact unmarshalStrList_roundtrip lvl

theorem unmarshalTree_roundtrip (tree : Tree) :
    Json.unmarshalTree (Json.arr (tree.map fun lvl => Json.arr (lvl.map Json.str)))
      = some tree := by
  simp only [Json.unmarshalTree]
  induction tree with
  | nil => rfl
  | cons lvl t ih =>
      simp only [List.map_cons, Json.unmarshalLevels, unmarshalLevel_roundtrip]
      rw [show Json.unmarshalLevels (t.map fun lvl => Json.arr (lvl.map Json.str)) = some t
        from ih]

/-! ## The trailing self-paired node of an odd level -/

theorem levelStep_ne_nil (h : HashF) (nodes : List Node) (hne : nodes ≠ []) :
    levelStep h nodes ≠ [] := by
  have hl := levelStep_length h nodes
  have hpos : 0 < nodes.length := List.length_pos.mpr hne
  intro h0
  rw [h0] at hl
  simp at hl
  omega

theorem levelStep_getLast_odd (h : HashF) :
    ∀ nodes : List Node, nodes.length % 2 = 1 →
      (levelStep h nodes).getLast?.map Node.Hash =
        nodes.getLast?.map fun nd => h (nd.Hash ++ nd.Hash)
  | [], h0 => by simp at h0
  | [a], _ => by simp [levelStep, Node.Hash]
  | a :: b :: rest, hodd => by
      have hro : rest.length % 2 = 1 := by
        simp only [List.length_cons] at hodd
        omega
      have hrne : rest ≠ [] := by
        intro h0
        rw [h0] at hro
        simp at hro
      have ih := levelStep_getLast_odd h rest hro
      obtain ⟨r1, rs, hre⟩ : ∃ r1 rs, rest = r1 :: rs := by
        cases rest with
        | nil => exact absurd rfl hrne
        | cons r1 rs => exact ⟨r1, rs, rfl⟩
      obtain ⟨c1, cs, hce⟩ : ∃ c1 cs, levelStep h rest = c1 :: cs := by
        cases hls : levelStep h rest with
        | nil => exact absurd hls (levelStep_ne_nil h rest hrne)
        | cons c1 cs => exact ⟨c1, cs, rfl⟩
      show ((levelStep h (a :: b :: rest)).getLast?).map Node.Hash = _
      rw [show levelStep h (a :: b :: rest) =
        .mk (a.Height + 1) (h (a.Hash ++ b.Hash)) (.ptr a) (.ptr b) [] :: levelStep h rest
        from rfl]
      rw [hce, List.getLast?_cons_cons, ← hce, ih, hre, List.getLast?_cons_cons,
        List.getLast?_cons_cons]

/-! ## Error behaviour of the proof loop -/

theorem GetHash_err_of_not_inRange (tree : Tree) (hwf : WellFormed tree)
    (pon : PoN) (hbad : ¬ InRange tree pon) :
    ∃ e, Tree.GetHash tree pon.1 pon.2 = .err e := by
  by_cases hlen : tree.length = 0
  · refine ⟨"tree is empty", ?_⟩
    unfold Tree.GetHash
    simp only [Tree.Height]
    rw [if_pos hlen]
  · have hY : Tree.Y tree = tree.length - 1 := by
      unfold Tree.Y Tree.Height
      rw [if_neg hlen]
    by_cases hy : pon.1 < tree.length
    · -- the offset must be out of range
      have hx : ¬ pon.2 < (tree.getD pon.1 []).length := by
        intro hx
        exact hbad ⟨hy, hx⟩
      have hmem : tree.getD pon.1 [] ∈ tree := by
        rw [List.getD_eq_getElem tree [] hy]
        exact List.getElem_mem hy
      have hwidth : 0 < (tree.getD pon.1 []).length :=
        List.length_pos.mpr (hwf _ hmem)
      refine ⟨"invalid x", ?_⟩
      unfold Tree.GetHash
      simp only [Tree.Height]
      rw [if_neg hlen, if_neg (by omega), Tree.X]
      simp only [Tree.Height]
      rw [if_neg hlen, Width_ok tree pon.1 hy]
      dsimp only
      rw [if_pos (by omega)]
    · refine ⟨"invalid y", ?_⟩
      unfold Tree.GetHash
      simp only [Tree.Height]
      rw [if_neg hlen, if_pos (by omega)]

theorem proveLoop_ok_of_inRange (h : HashF) (tree : Tree) :
    ∀ (path : PoNs) (d : Hash), (∀ pon ∈ path, InRange tree pon) →
      proveLoop h tree path d = .ok (recompute h tree path d)
  | [], d, _ => rfl
  | pon :: rest, d, hr => by
      have h1 := hr pon (List.mem_cons_self pon rest)
      have hget := GetHash_ok tree pon.1 pon.2 h1.1 h1.2
      simp only [proveLoop, hget, recompute, List.foldl_cons]
      exact proveLoop_ok_of_inRange h tree rest _
        (fun p hp => hr p (List.mem_cons_of_mem _ hp))

theorem proveLoop_err_of_bad (h : HashF) (tree : Tree) (hwf : WellFormed tree) :
    ∀ (path : PoNs) (d : Hash), (∃ pon ∈ path, ¬ InRange tree pon) →
      ∃ e, proveLoop h tree path d = .err e
  | [], _, hex => by
      obtain ⟨pon, hmem, _⟩ := hex
      exact absurd hmem (List.not_mem_nil pon)
  | pon :: rest, d, hex => by
      by_cases hin : InRange tree pon
      · have hget := GetHash_ok tree pon.1 pon.2 hin.1 hin.2
        simp only [proveLoop, hget]
        apply proveLoop_err_of_bad h tree hwf rest
        obtain ⟨q, hq, hbad⟩ := hex
        rcases List.mem_cons.mp hq with rfl | hq2
        · exact absurd hin hbad
        · exact ⟨q, hq2, hbad⟩
      · obtain ⟨e, he⟩ := GetHash_err_of_not_inRange tree hwf pon hin
        exact ⟨e, by simp only [proveLoop, he]⟩

theorem GetRootHash_ok_of_wf (tree : Tree) (hwf : WellFormed tree) (hne : tree ≠ []) :
    Tree.GetRootHash tree = .ok ((tree.getD (tree.length - 1) []).getD 0 []) := by
  have hlen : ¬ tree.length = 0 := by
    simpa [List.length_eq_zero] using hne
  have hY : Tree.Y tree = tree.length - 1 := by
    unfold Tree.Y Tree.Height
    rw [if_neg hlen]
  have htop_mem : tree.getD (tree.length - 1) [] ∈ tree := by
    rw [List.getD_eq_getElem tree [] (by omega)]
    exact List.getElem_mem (by omega)
  have htoppos : 0 < (tree.getD (tree.length - 1) []).length :=
    List.length_pos.mpr (hwf _ htop_mem)
  unfold Tree.GetRootHash
  simp only [Tree.Height]
  rw [if_neg hlen, hY, list_get?_getD tree (tree.length - 1) [] (by omega)]
  simp only [Option.some_bind]
  rw [list_get?_getD _ 0 [] htoppos]

theorem Prove_empty (h : HashF) (path : PoNs) (d : Hash) :
    Tree.Prove [] path d h = .err "tree is empty" := by
  cases path with
  | nil => rfl
  | cons pon rest => rfl

/-! # The claims -/

/-- C7: `BuildTree` fails with the `EmptyInput` error (`"not found leaf"`)
whenever the leaf sequence is empty or absent, returning no tree and no root
(the error constructor carries neither).  A nil `*Leaves` receiver reports
length 0, so absent and empty take the same branch. -/
theorem C7_build_empty_fails (h : HashF) (skipHash : Bool) (obj : Leaves)
    (he : obj.IsEmpty = true) :
    Leaves.BuildTree h skipHash obj = .error "not found leaf" := by
  unfold Leaves.BuildTree
  rw [if_pos he]

theorem C7_build_empty_fails_witness :
    Leaves.IsEmpty [] = true ∧
    Leaves.BuildTree sumHash false [] = .error "not found leaf" :=
  ⟨by decide, C7_build_empty_fails sumHash false [] (by decide)⟩

/-- C10: for `height ≥ 1` and a start level `y ≤ height - 1`, `GetPath`
terminates and appends exactly `height - 1 - y` positions — `pathFrom`,
whose recursion is literally "append `(y, sibling of x)`, move to
`(y + 1, sibling / 2)`" — to the accumulator; their levels ascend
`y, y+1, …, height - 2`, and at `y = height - 1` the accumulator is
returned unchanged. -/
theorem C10_getpath_shape (height y x : Nat) (pons : PoNs)
    (hh : 1 ≤ height) (hy : y ≤ height - 1) :
    PoNs.GetPath height y x pons = pons ++ pathFrom (height - 1 - y) y x ∧
    (PoNs.GetPath height y x pons).length = pons.length + (height - 1 - y) ∧
    (∀ k, k < height - 1 - y →
      ((pathFrom (height - 1 - y) y x).get? k).map Prod.fst = some (y + k)) ∧
    (y = height - 1 → PoNs.GetPath height y x pons = pons) := by
  have hmain : PoNs.GetPath height y x pons = pons ++ pathFrom (height - 1 - y) y x := by
    unfold PoNs.GetPath
    rw [getPathF_append]
    have hrec := GetPath_eq_pathFrom height hh (height - 1 - y) y x hy rfl
    unfold PoNs.GetPath at hrec
    rw [hrec]
  refine ⟨hmain, ?_, ?_, ?_⟩
  · rw [hmain]
    simp [pathFrom_length]
  · exact fun k hk => pathFrom_levels _ y x k hk
  · intro hyt
    rw [hmain, show height - 1 - y = 0 by omega]
    simp [pathFrom]

theorem C10_getpath_shape_witness :
    (1 ≤ 4 ∧ 0 ≤ 4 - 1) ∧
    (PoNs.GetPath 4 0 5 [(9, 9)] = [(9, 9)] ++ pathFrom (4 - 1 - 0) 0 5 ∧
     (PoNs.GetPath 4 0 5 [(9, 9)]).length = [((9 : Nat), (9 : Nat))].length + (4 - 1 - 0) ∧
     (∀ k, k < 4 - 1 - 0 →
       ((pathFrom (4 - 1 - 0) 0 5).get? k).map Prod.fst = some (0 + k)) ∧
     (0 = 4 - 1 → PoNs.GetPath 4 0 5 [(9, 9)] = [(9, 9)])) :=
  ⟨⟨by decide, by decide⟩, C10_getpath_shape 4 0 5 [(9, 9)] (by decide) (by decide)⟩

/-- C2: on every non-empty leaf sequence the build succeeds, and in the
Level Table it returns each level above the first has `ceil(previous / 2)`
entries, while the topmost level is exactly the one-entry list holding the
returned Root node's digest. -/
theorem C2_level_table_invariant (h : HashF) (skipHash : Bool) (obj : Leaves)
    (hne : obj ≠ []) :
    ∃ padded tree root, Leaves.BuildTree h skipHash obj = .ok (padded, tree, root) ∧
      (∀ i, i + 1 < tree.length →
        (tree.getD (i + 1) []).length = ((tree.getD i []).length + 1) / 2) ∧
      tree.getLast? = some [root.Hash] := by
  obtain ⟨padded, tree, root, hok⟩ := BuildTree_ok h skipHash obj hne
  obtain ⟨_, _, _, ext, htree, hchain, hlast⟩ :=
    BuildTree_ok_inv h skipHash obj padded tree root hok
  refine ⟨padded, tree, root, hok, ?_, ?_⟩
  · intro i hi
    have hc := hchain.hashChain
    rw [← htree] at hc
    rw [hashChain_getD h tree hc i hi, hashLevel_length]
  · obtain ⟨e, es, rfl⟩ : ∃ e es, ext = e :: es := by
      cases ext with
      | nil => exact absurd rfl hchain.ne_nil
      | cons e es => exact ⟨e, es, rfl⟩
    rw [htree, List.getLast?_cons_cons]
    exact hlast

theorem C2_level_table_invariant_witness :
    (sixLeaves ≠ [] ) ∧
    (∃ padded tree root,
      Leaves.BuildTree sumHash true sixLeaves = .ok (padded, tree, root) ∧
      (∀ i, i + 1 < tree.length →
        (tree.getD (i + 1) []).length = ((tree.getD i []).length + 1) / 2) ∧
      tree.getLast? = some [root.Hash]) :=
  ⟨by decide, C2_level_table_invariant sumHash true sixLeaves (by decide)⟩

/-- C3: one building pass over a level of odd length emits exactly
`ceil(n / 2)` parent digests — one per full pair and a single one for the
trailing unpaired node — and the parent of that trailing node at index
`n - 1` has digest `h(hash[n-1] ++ hash[n-1])`: the node is paired with
itself, with no extra slot for a phantom sibling. -/
theorem C3_trailing_self_pair (h : HashF) (nodes : List Node)
    (hodd : nodes.length % 2 = 1) :
    (levelStep h nodes).length = (nodes.length + 1) / 2 ∧
    (levelStep h nodes).getLast?.map Node.Hash =
      nodes.getLast?.map (fun nd => h (nd.Hash ++ nd.Hash)) :=
  ⟨levelStep_length h nodes, levelStep_getLast_odd h nodes hodd⟩

theorem C3_trailing_self_pair_witness :
    ([leafD 1, leafD 2, leafD 3].length % 2 = 1) ∧
    ((levelStep sumHash [leafD 1, leafD 2, leafD 3]).length =
        ([leafD 1, leafD 2, leafD 3].length + 1) / 2 ∧
     (levelStep sumHash [leafD 1, leafD 2, leafD 3]).getLast?.map Node.Hash =
        [leafD 1, leafD 2, leafD 3].getLast?.map
          (fun nd => sumHash (nd.Hash ++ nd.Hash))) :=
  ⟨by decide, C3_trailing_self_pair sumHash [leafD 1, leafD 2, leafD 3] (by decide)⟩

/-- C5: on an odd-length leaf sequence a successful build hands back a leaf
sequence one longer (hence even), whose appended last element is the clone
of the previously last leaf — equal to it as a value, so in particular with
the same digest and payload (the clone sits at the end, its original right
before it).  "Previously last" is the last leaf after the hashing pass,
which rewrites digests when `skipHash` is false. -/
theorem C5_odd_padding (h : HashF) (skipHash : Bool) (obj padded : Leaves)
    (tree : Tree) (root : Root) (hodd : obj.length % 2 = 1)
    (hok : Leaves.BuildTree h skipHash obj = .ok (padded, tree, root)) :
    padded.length = obj.length + 1 ∧ padded.length % 2 = 0 ∧
    ∃ last, (if skipHash then obj else Leaves.Hash h obj).getLast? = some last ∧
      padded = (if skipHash then obj else Leaves.Hash h obj) ++ [last] ∧
      padded.getLast? = some last ∧
      padded.get? (padded.length - 2) = some last := by
  obtain ⟨hpad, _, _, _⟩ := BuildTree_ok_inv h skipHash obj padded tree root hok
  set hashed := if skipHash then obj else Leaves.Hash h obj with hh
  have hlen : hashed.length = obj.length := by
    rw [hh]
    cases skipHash <;> simp [Leaves.Hash]
  have hhodd : hashed.length % 2 = 1 := by
    rw [hlen]
    exact hodd
  obtain ⟨last, hlast, hpe⟩ := padLeaves_of_odd hashed hhodd
  refine ⟨?_, ?_, last, hlast, ?_, ?_, ?_⟩
  · rw [hpad, hpe]
    simp [hlen]
  · rw [hpad]
    exact padLeaves_even hashed
  · rw [hpad, hpe]
  · rw [hpad, hpe, List.getLast?_concat]
  · rw [hpad, hpe]
    have hlpos : 0 < hashed.length := by omega
    have hidx : (hashed ++ [last]).length - 2 = hashed.length - 1 := by
      simp only [List.length_append, List.length_singleton]
      omega
    rw [hidx, List.get?_append (by omega), ← List.getLast?_eq_get?]
    exact hlast

theorem C5_odd_padding_witness :
    ([leafD 1, leafD 2, leafD 3].length % 2 = 1 ∧
     Leaves.BuildTree sumHash true [leafD 1, leafD 2, leafD 3] =
       .ok (builtLeaves sumHash true [leafD 1, leafD 2, leafD 3],
            builtTree sumHash true [leafD 1, leafD 2, leafD 3],
            builtRoot sumHash true [leafD 1, leafD 2, leafD 3])) ∧
    ((builtLeaves sumHash true [leafD 1, leafD 2, leafD 3]).length =
        [leafD 1, leafD 2, leafD 3].length + 1 ∧
     (builtLeaves sumHash true [leafD 1, leafD 2, leafD 3]).length % 2 = 0 ∧
     ∃ last,
       (if true then [leafD 1, leafD 2, leafD 3]
        else Leaves.Hash sumHash [leafD 1, leafD 2, leafD 3]).getLast? = some last ∧
       builtLeaves sumHash true [leafD 1, leafD 2, leafD 3] =
         (if true then [leafD 1, leafD 2, leafD 3]
          else Leaves.Hash sumHash [leafD 1, leafD 2, leafD 3]) ++ [last] ∧
       (builtLeaves sumHash true [leafD 1, leafD 2, leafD 3]).getLast? = some last ∧
       (builtLeaves sumHash true [leafD 1, leafD 2, leafD 3]).get?
         ((builtLeaves sumHash true [leafD 1, leafD 2, leafD 3]).length - 2) = some last) :=
  ⟨⟨by decide, by decide⟩,
   C5_odd_padding sumHash true [leafD 1, leafD 2, leafD 3]
     (builtLeaves sumHash true [leafD 1, leafD 2, leafD 3])
     (builtTree sumHash true [leafD 1, leafD 2, leafD 3])
     (builtRoot sumHash true [leafD 1, leafD 2, leafD 3]) (by decide) (by decide)⟩

/-- C9: marshalling a Root node or a Level Table, unmarshalling the output
and marshalling again reproduces the first output exactly (equal `Json`
documents render to identical bytes), because unmarshal inverts marshal
structurally: `unmarshal(marshal(x)) = x` for the recursive Node graph and
for the flat table.  The decode direction is modelled from the spec (§4.6):
the repository delegates it to `encoding/json`. -/
theorem C9_marshal_roundtrip (node : Node) (tree : Tree) :
    (Json.unmarshalNode (Root.Marshal node) = some node ∧
     (Json.unmarshalNode (Root.Marshal node)).map Root.Marshal =
       some (Root.Marshal node)) ∧
    (∃ j, Tree.Marshal (some tree) = .ok j ∧
      Json.unmarshalTree j = some tree ∧
      (Json.unmarshalTree j).map (fun t => Tree.Marshal (some t)) =
        some (Tree.Marshal (some tree))) := by
  have h1 : Json.unmarshalNode (Root.Marshal node) = some node :=
    unmarshalNode_marshal node
  refine ⟨⟨h1, ?_⟩, ?_⟩
  · rw [h1]
    rfl
  · have hm : Tree.Marshal (some tree) =
        .ok (Json.arr (tree.map fun lvl => Json.arr (lvl.map Json.str))) := rfl
    refine ⟨_, hm, unmarshalTree_roundtrip tree, ?_⟩
    rw [unmarshalTree_roundtrip tree]
    rfl

/-- C8 counterexample: on the one-level tree `[[[0]]]`, `Width 1` is an
index-out-of-range panic, not the 0 result the claim promises for an
out-of-range level. -/
theorem C8_counterexample :
    Tree.Width [[[0]]] 1 = .panic ∧ ¬ Tree.Width [[[0]]] 1 = .ok 0 := by decide

/-- C8 amended: `Width` returns the number of entries at an in-range level,
returns 0 whenever the tree is nil or empty (whatever the level), and
panics — rather than returning 0 — on an out-of-range level of a non-empty
tree. -/
theorem C8_width (tree : Tree) (y : Nat) :
    (tree.length = 0 → Tree.Width tree y = .ok 0) ∧
    (y < tree.length → Tree.Width tree y = .ok (tree.getD y []).length) ∧
    (tree.length ≠ 0 → tree.length ≤ y → Tree.Width tree y = .panic) := by
  refine ⟨?_, fun hy => Width_ok tree y hy, ?_⟩
  · intro h0
    unfold Tree.Width Tree.Height
    rw [if_pos h0]
  · intro hne hy
    unfold Tree.Width Tree.Height
    rw [if_neg hne, List.get?_eq_none.mpr (by omega)]

theorem C8_width_witness :
    (1 < ([[[0]], [[5], [6]]] : Tree).length ∧
      Tree.Width [[[0]], [[5], [6]]] 1 =
        .ok (([[[0]], [[5], [6]]] : Tree).getD 1 []).length) ∧
    (([[[7]]] : Tree).length ≠ 0 ∧ ([[[7]]] : Tree).length ≤ 3 ∧
      Tree.Width [[[7]]] 3 = .panic) :=
  ⟨⟨by decide, (C8_width [[[0]], [[5], [6]]] 1).2.1 (by decide)⟩,
   ⟨by decide, by decide, (C8_width [[[7]]] 3).2.2 (by decide) (by decide)⟩⟩

/-- C4 counterexample: a single pre-hashed leaf with digest `[7]` is padded
to two copies and builds a tree of height 2 — not 1 — whose root digest is
the combination `h(d ++ d)`, different from the leaf digest: a hashing
combination step does occur. -/
theorem C4_counterexample :
    Leaves.BuildTree sumHash true [leafD 7] =
      .ok (builtLeaves sumHash true [leafD 7], builtTree sumHash true [leafD 7],
           builtRoot sumHash true [leafD 7]) ∧
    Tree.Height (builtTree sumHash true [leafD 7]) = 2 ∧
    ¬ Tree.Height (builtTree sumHash true [leafD 7]) = 1 ∧
    ¬ (builtRoot sumHash true [leafD 7]).Hash = (leafD 7).Hash := by decide

/-- C4 amended: a single-leaf build pads the sequence to two copies of the
leaf (digest `d`: the leaf's own when `skipHash`, else `h(payload)`) and
produces a height-2 table `[[d, d], [h(d ++ d)]]` whose root digest is the
combination `h(d ++ d)` — not a height-1 tree with the leaf digest as root. -/
theorem C4_single_leaf (h : HashF) (skipHash : Bool) (leaf : Node) :
    ∃ leaf2, Leaves.BuildTree h skipHash [leaf] =
      .ok ([leaf2, leaf2],
           [[leaf2.Hash, leaf2.Hash], [h (leaf2.Hash ++ leaf2.Hash)]],
           Node.mk (leaf2.Height + 1) (h (leaf2.Hash ++ leaf2.Hash))
             (.ptr leaf2) (.ptr leaf2) []) ∧
      leaf2.Hash = (if skipHash then leaf.Hash else h leaf.Payload) ∧
      Tree.Height [[leaf2.Hash, leaf2.Hash], [h (leaf2.Hash ++ leaf2.Hash)]] = 2 := by
  cases leaf with
  | mk ht hs hl hr hp =>
    cases skipHash with
    | false => exact ⟨.mk ht (h hp) hl hr hp, rfl, rfl, rfl⟩
    | true => exact ⟨.mk ht hs hl hr hp, rfl, rfl, rfl⟩

/-- C6: under the well-formedness every built table enjoys (no empty level):
a failing sibling lookup — any path position out of range, or an empty
tree — surfaces as a returned error, never as a false verdict; and when
every lookup succeeds, `Prove` returns, with no error, the boolean
comparison of the stored root digest against the recomputed digest — in
particular plain `ok false` on a mismatch. -/
theorem C6_prove_error_vs_false (h : HashF) (tree : Tree) (hwf : WellFormed tree) :
    (∀ path d, (∃ pon ∈ path, ¬ InRange tree pon) →
      ∃ e, Tree.Prove tree path d h = .err e) ∧
    (tree = [] → ∀ path d, Tree.Prove tree path d h = .err "tree is empty") ∧
    (tree ≠ [] → ∀ path d, (∀ pon ∈ path, InRange tree pon) →
      Tree.Prove tree path d h =
        .ok (((tree.getD (tree.length - 1) []).getD 0 []) == recompute h tree path d) ∧
      (¬ ((tree.getD (tree.length - 1) []).getD 0 []) = recompute h tree path d →
        Tree.Prove tree path d h = .ok false)) := by
  refine ⟨?_, ?_, ?_⟩
  · intro path d hex
    obtain ⟨e, he⟩ := proveLoop_err_of_bad h tree hwf path d hex
    refine ⟨e, ?_⟩
    unfold Tree.Prove
    rw [he]
  · rintro rfl path d
    exact Prove_empty h path d
  · intro hne path d hall
    have hloop := proveLoop_ok_of_inRange h tree path d hall
    have hroot := GetRootHash_ok_of_wf tree hwf hne
    constructor
    · unfold Tree.Prove
      rw [hloop, hroot]
    · intro hdiff
      unfold Tree.Prove
      rw [hloop, hroot]
      dsimp only
      rw [beq_eq_false_iff_ne.mpr hdiff]

theorem C6_prove_error_vs_false_witness :
    WellFormed (builtTree sumHash true sixLeaves) ∧
    ((∀ path d, (∃ pon ∈ path, ¬ InRange (builtTree sumHash true sixLeaves) pon) →
      ∃ e, Tree.Prove (builtTree sumHash true sixLeaves) path d sumHash = .err e) ∧
    (builtTree sumHash true sixLeaves = [] → ∀ path d,
      Tree.Prove (builtTree sumHash true sixLeaves) path d sumHash = .err "tree is empty") ∧
    (builtTree sumHash true sixLeaves ≠ [] → ∀ path d,
      (∀ pon ∈ path, InRange (builtTree sumHash true sixLeaves) pon) →
      Tree.Prove (builtTree sumHash true sixLeaves) path d sumHash =
        .ok ((((builtTree sumHash true sixLeaves).getD
               ((builtTree sumHash true sixLeaves).length - 1) []).getD 0 []) ==
             recompute sumHash (builtTree sumHash true sixLeaves) path d) ∧
      (¬ (((builtTree sumHash true sixLeaves).getD
            ((builtTree sumHash true sixLeaves).length - 1) []).getD 0 []) =
          recompute sumHash (builtTree sumHash true sixLeaves) path d →
        Tree.Prove (builtTree sumHash true sixLeaves) path d sumHash = .ok false))) :=
  ⟨by decide, C6_prove_error_vs_false sumHash (builtTree sumHash true sixLeaves) (by decide)⟩

/-- C1 counterexample: with six pre-hashed leaves the table's level widths
are 6, 3, 2, 1; for leaf offset 4 the derived path is
`[(0,5), (1,3), (2,0)]` and position `(1,3)` is out of range on the
width-3 level 1 (the offset-2 node there is self-paired), so `Prove` with
the leaf's correct digest returns the error `invalid x` — not `true`. -/
theorem C1_counterexample :
    Leaves.BuildTree sumHash true sixLeaves =
      .ok (builtLeaves sumHash true sixLeaves, builtTree sumHash true sixLeaves,
           builtRoot sumHash true sixLeaves) ∧
    4 < ((builtTree sumHash true sixLeaves).getD 0 []).length ∧
    PoNs.GetPath (Tree.Height (builtTree sumHash true sixLeaves)) 0 4 [] =
      [(0, 5), (1, 3), (2, 0)] ∧
    Tree.Prove (builtTree sumHash true sixLeaves) [(0, 5), (1, 3), (2, 0)]
      (((builtTree sumHash true sixLeaves).getD 0 []).getD 4 []) sumHash
      = .err "invalid x" := by decide

/-- C1 amended: for every built tree and every leaf offset whose derived
sibling path stays inside the Level Table, `GetPath` (level 0 to the tree's
height) followed by `Prove` with that leaf's level-0 digest and the same
hash function returns `ok true` — the recomputed digest equals the stored
root.  The in-range proviso is forced by the flagged self-pairing edge case:
when the climb crosses a self-paired position the nominal sibling falls
outside the table and `Prove` returns the `invalid x` error instead (see the
counterexample). -/
theorem C1_prove_roundtrip (h : HashF) (skipHash : Bool) (obj padded : Leaves)
    (tree : Tree) (root : Root) (x : Nat)
    (hok : Leaves.BuildTree h skipHash obj = .ok (padded, tree, root))
    (hx : x < (tree.getD 0 []).length)
    (hpath : ∀ pon ∈ PoNs.GetPath (Tree.Height tree) 0 x [], InRange tree pon) :
    Tree.Prove tree (PoNs.GetPath (Tree.Height tree) 0 x [])
      ((tree.getD 0 []).getD x []) h = .ok true := by
  obtain ⟨_, _, _, ext, htree, hchain, hlast⟩ :=
    BuildTree_ok_inv h skipHash obj padded tree root hok
  have hlen1 : 1 ≤ tree.length := by
    rw [htree]
    simp
  have htreelast : tree.getLast? = some [root.Hash] := by
    obtain ⟨e, es, rfl⟩ : ∃ e es, ext = e :: es := by
      cases ext with
      | nil => exact absurd rfl hchain.ne_nil
      | cons e es => exact ⟨e, es, rfl⟩
    rw [htree, List.getLast?_cons_cons]
    exact hlast
  have htopD : tree.getD (tree.length - 1) [] = [root.Hash] := by
    rw [List.getLast?_eq_get?] at htreelast
    rw [List.getD_eq_getD_get? tree [] (tree.length - 1), htreelast]
    rfl
  have htop1 : (tree.getD (tree.length - 1) []).length = 1 := by
    rw [htopD]
    rfl
  have hchain2 : HashChain h tree := by
    rw [htree]
    exact hchain.hashChain
  have hpatheq : PoNs.GetPath (Tree.Height tree) 0 x [] = pathFrom (tree.length - 1) 0 x := by
    have hrw := GetPath_eq_pathFrom tree.length hlen1 (tree.length - 1 - 0) 0 x (by omega) rfl
    simpa [Tree.Height] using hrw
  rw [hpatheq]
  have hrange : ∀ pon ∈ pathFrom (tree.length - 1) 0 x,
      pon.2 < (tree.getD pon.1 []).length := by
    intro pon hpon
    refine (hpath pon ?_).2
    rw [hpatheq]
    exact hpon
  have hrange0 : ∀ pon ∈ pathFrom (tree.length - 1 - 0) 0 x,
      pon.2 < (tree.getD pon.1 []).length := by
    simpa using hrange
  have hloop := proveLoop_climb h tree hchain2 htop1 (tree.length - 1 - 0) 0 x
    (by omega) rfl (by simpa using hx) hrange0
  have hloop2 : proveLoop h tree (pathFrom (tree.length - 1) 0 x)
      ((tree.getD 0 []).getD x []) = .ok root.Hash := by
    rw [htopD] at hloop
    simpa using hloop
  unfold Tree.Prove
  rw [hloop2, GetRootHash_ok tree root.Hash htreelast]
  simp

theorem C1_prove_roundtrip_witness :
    (Leaves.BuildTree sumHash true sixLeaves =
        .ok (builtLeaves sumHash true sixLeaves, builtTree sumHash true sixLeaves,
             builtRoot sumHash true sixLeaves) ∧
     2 < ((builtTree sumHash true sixLeaves).getD 0 []).length ∧
     (∀ pon ∈ PoNs.GetPath (Tree.Height (builtTree sumHash true sixLeaves)) 0 2 [],
        InRange (builtTree sumHash true sixLeaves) pon)) ∧
    Tree.Prove (builtTree sumHash true sixLeaves)
      (PoNs.GetPath (Tree.Height (builtTree sumHash true sixLeaves)) 0 2 [])
      (((builtTree sumHash true sixLeaves).getD 0 []).getD 2 []) sumHash = .ok true :=
  ⟨⟨by decide, by decide, by decide⟩,
   C1_prove_roundtrip sumHash true sixLeaves
     (builtLeaves sumHash true sixLeaves) (builtTree sumHash true sixLeaves)
     (builtRoot sumHash true sixLeaves) 2 (by decide) (by decide) (by decide)⟩

end Merkletree
